import Mathlib

/-!
Verification of the collaborative document state & change-notification
pipeline of this repository: DocumentHelper (toProsemirror, diff,
toEmailDiff, applyMarkdownToDocument), PersistenceExtension
(onLoadDocument, onChange, onStoreDocument), BaseEmail.send and the
collaborator-subscription side effect of revision-created fanout.

External collaborators (the Prosemirror parser and schema, the Yjs CRDT
engine, React/JSDOM rendering, node-htmldiff, the mailer, the database)
are opaque services per the spec; they appear here as function parameters
of the embedded operations, while the control flow, branching and state
handling of the repository's own code are embedded faithfully.
-/

namespace Spec2Proof

/-- Replicated binary state: an opaque byte blob (`Buffer` in the source).
A present value — even an empty blob — is truthy in the source's
`document.state` checks; absence models `null`/`undefined`. -/
abbrev YBytes := List Nat

/-- A `Document` model row as seen by DocumentHelper: title, canonical
markup text, optional replicated binary state, optional version marker. -/
structure Document where
  title : String
  text : String
  state : Option YBytes
  version : Option Nat
deriving Repr, DecidableEq

/-- A `Revision` model row: an immutable snapshot. A revision carries no
`state` field, which is what the source's `"state" in document` test
distinguishes. -/
structure Revision where
  title : String
  text : String
  version : Option Nat
deriving Repr, DecidableEq

/-- The `Document | Revision` union taken by the DocumentHelper methods. -/
inductive DocOrRev where
  | doc (d : Document)
  | rev (r : Revision)
deriving Repr, DecidableEq

/-- The markup text of either kind of row. -/
def DocOrRev.text : DocOrRev → String
  | .doc d => d.text
  | .rev r => r.text

/-- The title of either kind of row. -/
def DocOrRev.title : DocOrRev → String
  | .doc d => d.title
  | .rev r => r.title

/-- `DocumentHelper.toProsemirror` (src/unnamed/part_002, lines 68-75):
if the row has a truthy `state` field, build a fresh `Y.Doc`, apply the
stored update, project it to JSON via `yDocToProsemirrorJSON` and read the
node back with `Node.fromJSON`; otherwise parse the markup text with the
markup parser. The external functions are parameters; the dispatch is the
source's. -/
def toProsemirror {Node YDoc Json : Type}
    (parse : String → Node) (newYDoc : YDoc)
    (applyUpdate : YDoc → YBytes → YDoc)
    (yDocToProsemirrorJSON : YDoc → Json)
    (nodeFromJSON : Json → Node) : DocOrRev → Node
  | .doc d =>
    match d.state with
    | some s => nodeFromJSON (yDocToProsemirrorJSON (applyUpdate newYDoc s))
    | none => parse d.text
  | .rev r => parse r.text

/-- A rendered HTML document viewed as a DOM: the shell text before the
first `article` element's innerHTML, that innerHTML, and the shell text
after it. `DocumentHelper.toHTML`'s output parses into this shape, and
JSDOM serialization concatenates the three parts. -/
structure HtmlDoc where
  shellPre : String
  article : String
  shellPost : String
deriving Repr, DecidableEq

/-- JSDOM `dom.serialize()` of an `HtmlDoc`. -/
def serializeHtml (h : HtmlDoc) : String :=
  h.shellPre ++ h.article ++ h.shellPost

/-- `DocumentHelper.diff` (src/unnamed/part_002, lines 185-213): with no
`before`, render `after` alone; otherwise render both, diff only the two
article innerHTMLs with `node-htmldiff`, and write the diffed content into
the article of the **before** DOM, which is then serialized. `toHTML`
(rendering plus JSDOM parse) and `htmldiff` are opaque parameters. -/
def diffDocs (toHTML : DocOrRev → HtmlDoc)
    (htmldiff : String → String → String)
    (before : Option DocOrRev) (after : DocOrRev) : HtmlDoc :=
  match before with
  | none => toHTML after
  | some b =>
    let beforeDOM := toHTML b
    let afterDOM := toHTML after
    let diffedContentAsHTML := htmldiff beforeDOM.article afterDOM.article
    { beforeDOM with article := diffedContentAsHTML }

/-- A concrete stand-in for `toHTML` used to exhibit behaviour on concrete
inputs: the shell contains the document title (as the real shell does, via
the rendered `h1` and RTL direction attributes), the article contains the
rendered text. -/
def toHTML0 (x : DocOrRev) : HtmlDoc :=
  { shellPre := "<html><h1>" ++ x.title ++ "</h1><article>"
    article := "content:" ++ x.text
    shellPost := "</article></html>" }

/-- A concrete stand-in for `node-htmldiff` on concrete inputs. -/
def htmldiff0 (b a : String) : String := b ++ "|" ++ a

/-- A concrete before document and after revision whose titles differ, so
the two renderings have different shells. -/
def beforeDoc0 : Document := ⟨"Old title", "old body", none, none⟩

/-- The concrete after revision for the diff examples. -/
def afterRev0 : Revision := ⟨"New title", "new body", none⟩

/-- A top-level block element of the diffed content (`#content > *` in
`DocumentHelper.toEmailDiff`): its tag name (`nodeName`), whether its
innerHTML contains a diff marker (`data-operation-index`), and whether its
`textContent` is nonempty (truthy). -/
structure Block where
  name : String
  hasDiff : Bool
  hasText : Bool
deriving Repr, DecidableEq

/-- An element of the compacted content: a retained original block (tagged
with its position in the source block list) or an inserted
`div.diff-context-break` containing an ellipsis. -/
inductive Item where
  | orig (idx : Nat) (b : Block)
  | brk
deriving Repr, DecidableEq

/-- `nodeName` of a compacted element; the break marker is a `div`. -/
def Item.name : Item → String
  | .orig _ b => b.name
  | .brk => "DIV"

/-- `containsDiffElement` on a compacted element; the break marker's
innerHTML is only an ellipsis, so it never contains a diff marker. -/
def Item.hasDiff : Item → Bool
  | .orig _ b => b.hasDiff
  | .brk => false

/-- Loop state of the compaction in `DocumentHelper.toEmailDiff`
(src/unnamed/part_002, lines 246-292): the blocks currently kept before
the block under iteration (the live DOM prefix), and the two flags
`previousNodeRemoved` and `previousDiffClipped`. -/
structure EmailDiffState where
  out : List Item
  prevRemoved : Bool
  prevClipped : Bool
deriving Repr, DecidableEq

/-- Whether an optional source sibling is a paragraph containing a diff
marker (`nextElementSibling?.nodeName === "P" && containsDiffElement`). -/
def isDiffP : Option Block → Bool
  | some q => q.name == "P" && q.hasDiff
  | none => false

/-- Whether an optional kept sibling is a paragraph containing a diff
marker (`previousElementSibling?.nodeName === "P" && containsDiffElement`). -/
def isDiffPItem : Option Item → Bool
  | some p => p.name == "P" && p.hasDiff
  | none => false

/-- One iteration of the `toEmailDiff` compaction loop over block `b` at
source position `i` with source successor `next`. The four branches are
the source's: (1) a block containing a diff marker is kept, with a break
inserted before it when the previous block was removed and a diff block
was already clipped; (2) a nonempty paragraph whose next sibling is a
diff-marked paragraph is kept as leading context, with a break when a diff
block was already clipped; (3) a nonempty paragraph whose previous element
sibling in the live DOM is a diff-marked paragraph is kept as trailing
context; (4) anything else is removed. -/
def stepEmailDiff (st : EmailDiffState) (i : Nat) (b : Block)
    (next : Option Block) : EmailDiffState :=
  if b.hasDiff then
    { out := st.out ++ (if st.prevRemoved && st.prevClipped then [Item.brk] else [])
        ++ [Item.orig i b]
      prevRemoved := false
      prevClipped := true }
  else if b.name == "P" && b.hasText && isDiffP next then
    { out := st.out ++ (if st.prevClipped then [Item.brk] else [])
        ++ [Item.orig i b]
      prevRemoved := false
      prevClipped := st.prevClipped }
  else if b.name == "P" && b.hasText && isDiffPItem st.out.getLast? then
    { out := st.out ++ [Item.orig i b]
      prevRemoved := false
      prevClipped := st.prevClipped }
  else
    { st with prevRemoved := true }

/-- The compaction loop run over the remaining blocks, `i` being the
source position of the first of them. The iteration is over the static
`querySelectorAll` list, so the successor passed to each step is the
original next block (later blocks are untouched when a block is
processed), while the live-DOM predecessor is read from the state. -/
def runEmailDiff : Nat → EmailDiffState → List Block → EmailDiffState
  | _, st, [] => st
  | i, st, b :: rest => runEmailDiff (i + 1) (stepEmailDiff st i b rest.head?) rest

/-- The compacted top-level content produced by the `toEmailDiff` loop on
the diffed document's top-level blocks. -/
def toEmailDiffBlocks (bs : List Block) : List Item :=
  (runEmailDiff 0 ⟨[], false, false⟩ bs).out

/-- `DocumentHelper.toEmailDiff` (src/unnamed/part_002, lines 226-297):
empty string when `before` is null; otherwise the full diff is rendered,
its top-level blocks are read off (`toBlocks`, abstracting the JSDOM
parse and `querySelectorAll`), compacted by the loop above, and the head
and body are serialized back to a string. -/
def toEmailDiff (toHTML : DocOrRev → HtmlDoc)
    (htmldiff : String → String → String)
    (toBlocks : HtmlDoc → List Block)
    (serializeItems : List Item → String)
    (before : Option DocOrRev) (after : DocOrRev) : String :=
  match before with
  | none => ""
  | some _ =>
    serializeItems (toEmailDiffBlocks (toBlocks (diffDocs toHTML htmldiff before after)))

/-- `DocumentHelper.applyMarkdownToDocument` (src/unnamed/part_002, lines
346-372): replace or append the markup text; when replicated state is
present, decode it, parse the new text, and — unless the decoded
fragment's backing `type.doc` is undefined, in which case an error is
thrown — merge the parsed tree into the existing fragment with
`updateYFragment` and re-encode. `parse` is the markup parser,
`typeDocDefined` whether `type.doc` is defined for the decoded state, and
`mergeUpdate` the composite `updateYFragment` + `Y.encodeStateAsUpdate`
on the existing ydoc, a function of the existing state and the parsed
tree (the delta is merged into the existing state, never a fresh one). -/
def applyMarkdownToDocument {Node : Type}
    (parse : String → Node)
    (typeDocDefined : YBytes → Bool)
    (mergeUpdate : YBytes → Node → YBytes)
    (document : Document) (text : String) (append : Bool) :
    Except String Document :=
  let newText := if append then document.text ++ text else text
  match document.state with
  | none => .ok { document with text := newText }
  | some s =>
    if typeDocDefined s then
      .ok { document with
              text := newText
              state := some (mergeUpdate s (parse newText)) }
    else
      .error "type.doc not found"

/-- A persisted `Document` row as touched by `PersistenceExtension`
(src/unnamed/part_003): markup text and nullable binary state. -/
structure DocumentRow where
  id : String
  text : String
  state : Option YBytes
deriving Repr, DecidableEq

/-- `PersistenceExtension.onLoadDocument` (src/unnamed/part_003, lines
25-70): if the in-memory y-doc's `default` field is already populated,
no-op returning nothing (`none`); otherwise, inside one transaction under
a row `UPDATE` lock (modelled as this single atomic step over the locked
row), decode and return the persisted binary state when present, and when
absent derive a fresh y-doc from the markup text, persist its encoding
back onto the row, and return it. The result pairs the returned y-doc
with the row as committed by the transaction. -/
def onLoadDocument {YDoc : Type}
    (applyUpdate : YBytes → YDoc)
    (markdownToYDoc : String → YDoc)
    (encodeStateAsUpdate : YDoc → YBytes)
    (inMemoryPopulated : Bool)
    (row : DocumentRow) : Option (YDoc × DocumentRow) :=
  if inMemoryPopulated then
    none
  else
    match row.state with
    | some s => some (applyUpdate s, row)
    | none =>
      let ydoc := markdownToYDoc row.text
      some (ydoc, { row with state := some (encodeStateAsUpdate ydoc) })

/-- `PersistenceExtension.onChange` (src/unnamed/part_003, lines 72-81):
record the acting connection's user id (possibly `undefined`) into the
accumulated per-document-name editor set; a `Set` keeps insertion order
and ignores re-inserted elements. -/
def onChangeEntry (entry : Option (List (Option String)))
    (uid : Option String) : Option (List (Option String)) :=
  some (if uid ∈ entry.getD [] then entry.getD [] else entry.getD [] ++ [uid])

/-- What one `onStoreDocument` call does: the map entry for the document
name afterwards, the author id handed to `documentCollaborativeUpdater`,
and whether a persistence failure was logged. -/
structure StoreOutcome where
  entryAfter : Option (List (Option String))
  author : Option String
  errorLogged : Bool

/-- `PersistenceExtension.onStoreDocument` (src/unnamed/part_003, lines
83-114): read the accumulated editor set for the document name, falling
back to the one-element array `[context.user?.id]` when no set was
accumulated; delete the map entry; hand the last element of the array
(`Array.pop`) to `documentCollaborativeUpdater` as the attributed author;
catch and log any failure of that persistence call. The function is total
— it never propagates the persistence error. `storeAuthor` is the
author computation (`collaboratorIds.pop()` on the read-or-fallback
array), `onStoreDocument` the `try`/`catch` around
`documentCollaborativeUpdater`. -/
def storeAuthor (entry : Option (List (Option String)))
    (ctxUser : Option String) : Option String :=
  (match entry with
    | some s => s
    | none => [ctxUser]).getLast?.join

/-- See `storeAuthor`: the body of `PersistenceExtension.onStoreDocument`. -/
def onStoreDocument
    (persist : Option String → Except String Unit)
    (entry : Option (List (Option String)))
    (ctxUser : Option String) : StoreOutcome :=
  match persist (storeAuthor entry ctxUser) with
  | .ok _ => ⟨none, storeAuthor entry ctxUser, false⟩
  | .error _ => ⟨none, storeAuthor entry ctxUser, true⟩

/-- A `Subscription` row: (user, document, event) with an enabled flag;
soft-deletable (`deleted` models a set `deletedAt`). -/
structure Subscription where
  userId : String
  documentId : String
  event : String
  enabled : Bool
  deleted : Bool
deriving Repr, DecidableEq

/-- A `subscriptions.create` event emitted for an automatic subscription
creation during revision-created fanout. -/
structure SubEvent where
  userId : String
  documentId : String
deriving Repr, DecidableEq

/-- Whether any subscription row — enabled or soft-deleted — exists for
(user, document, event): the existence check includes soft-deleted rows
(`paranoid: false` in the repository's test's terms). -/
def hasSubscription (subs : List Subscription) (uid docId ev : String) : Bool :=
  subs.any fun s => s.userId == uid && s.documentId == docId && s.event == ev

/-- One collaborator of the automatic-subscription side effect: skip when
any subscription row (enabled or soft-deleted) exists, otherwise create
an enabled subscription and emit a `subscriptions.create` event. -/
def createSubsStep (docId ev : String)
    (acc : List Subscription × List SubEvent) (uid : String) :
    List Subscription × List SubEvent :=
  if hasSubscription acc.1 uid docId ev then acc
  else (acc.1 ++ [⟨uid, docId, ev, true, false⟩], acc.2 ++ [⟨uid, docId⟩])

/-- The side effect iterated over the collaborator list in order. -/
def createSubsAux (docId ev : String) :
    List String → List Subscription × List SubEvent →
      List Subscription × List SubEvent
  | [], acc => acc
  | uid :: rest, acc => createSubsAux docId ev rest (createSubsStep docId ev acc uid)

/-- Modelled from the spec: the collaborator-subscription side effect of
revision-created fanout in `NotificationsProcessor`, whose source is not
among the repository's files (only its test is). Per the spec: "for every
collaborator on the document who does not already hold an enabled or
soft-deleted Subscription for the update event, create one automatically
(in collaborator order) and emit a `subscription-created` event per
creation. A previously-soft-deleted subscription for a given (user,
document, event) is never recreated by this side effect." Existence is
checked against the store, including rows created earlier in the same
run ("checked by existence, not by in-memory state"). Returns the store
contents and the emitted events after the side effect. -/
def createSubscriptions (subs : List Subscription) (docId ev : String)
    (collaboratorIds : List String) : List Subscription × List SubEvent :=
  createSubsAux docId ev collaboratorIds (subs, [])

/-- An existing subscription row keeps being found after more rows are
appended to the store. -/
theorem hasSubscription_append_left {l : List Subscription} {u docId ev : String}
    (h : hasSubscription l u docId ev = true) (t : List Subscription) :
    hasSubscription (l ++ t) u docId ev = true := by
  unfold hasSubscription at h ⊢
  rw [List.any_append, h]
  rfl

/-- A subscription row in the store survives one side-effect step. -/
theorem mem1_createSubsStep {s : Subscription}
    {acc : List Subscription × List SubEvent} (docId ev uid : String)
    (h : s ∈ acc.1) : s ∈ (createSubsStep docId ev acc uid).1 := by
  by_cases hc : hasSubscription acc.1 uid docId ev = true
  · simpa [createSubsStep, hc] using h
  · simp only [createSubsStep, hc]
    simp [h]

/-- An emitted event survives one side-effect step. -/
theorem mem2_createSubsStep {e : SubEvent}
    {acc : List Subscription × List SubEvent} (docId ev uid : String)
    (h : e ∈ acc.2) : e ∈ (createSubsStep docId ev acc uid).2 := by
  by_cases hc : hasSubscription acc.1 uid docId ev = true
  · simpa [createSubsStep, hc] using h
  · simp only [createSubsStep, hc]
    simp [h]

/-- A subscription row in the store survives the whole side effect. -/
theorem mem1_createSubsAux (docId ev : String) :
    ∀ (l : List String) (acc : List Subscription × List SubEvent)
      {s : Subscription}, s ∈ acc.1 → s ∈ (createSubsAux docId ev l acc).1 := by
  intro l
  induction l with
  | nil => intro acc s h; exact h
  | cons uid rest ih =>
    intro acc s h
    exact ih (createSubsStep docId ev acc uid) (mem1_createSubsStep docId ev uid h)

/-- An emitted event survives the whole side effect. -/
theorem mem2_createSubsAux (docId ev : String) :
    ∀ (l : List String) (acc : List Subscription × List SubEvent)
      {e : SubEvent}, e ∈ acc.2 → e ∈ (createSubsAux docId ev l acc).2 := by
  intro l
  induction l with
  | nil => intro acc e h; exact h
  | cons uid rest ih =>
    intro acc e h
    exact ih (createSubsStep docId ev acc uid) (mem2_createSubsStep docId ev uid h)

/-- For a user who already has some subscription row in the store, the
side effect never adds a row or emits an event for that user, and the
row keeps existing. -/
theorem createSubsAux_no_new_for (docId ev u : String) :
    ∀ (l : List String) (acc : List Subscription × List SubEvent),
      hasSubscription acc.1 u docId ev = true →
      hasSubscription (createSubsAux docId ev l acc).1 u docId ev = true ∧
      (∀ s ∈ (createSubsAux docId ev l acc).1, s ∈ acc.1 ∨ s.userId ≠ u) ∧
      (∀ e ∈ (createSubsAux docId ev l acc).2, e ∈ acc.2 ∨ e.userId ≠ u) := by
  intro l
  induction l with
  | nil => intro acc h; exact ⟨h, fun s hs => Or.inl hs, fun e he => Or.inl he⟩
  | cons uid rest ih =>
    intro acc h
    by_cases hc : hasSubscription acc.1 uid docId ev = true
    · have hstep : createSubsStep docId ev acc uid = acc := by
        simp [createSubsStep, hc]
      have h2 := ih (createSubsStep docId ev acc uid) (by rw [hstep]; exact h)
      rw [hstep] at h2
      show hasSubscription
          (createSubsAux docId ev rest (createSubsStep docId ev acc uid)).1 u docId ev
            = true ∧
        (∀ s ∈ (createSubsAux docId ev rest (createSubsStep docId ev acc uid)).1,
          s ∈ acc.1 ∨ s.userId ≠ u) ∧
        (∀ e ∈ (createSubsAux docId ev rest (createSubsStep docId ev acc uid)).2,
          e ∈ acc.2 ∨ e.userId ≠ u)
      rw [hstep]
      exact h2
    · have hne : uid ≠ u := fun he => hc (by rw [he]; exact h)
      have hstep : createSubsStep docId ev acc uid
          = (acc.1 ++ [⟨uid, docId, ev, true, false⟩], acc.2 ++ [⟨uid, docId⟩]) := by
        simp [createSubsStep, hc]
      have h' : hasSubscription (createSubsStep docId ev acc uid).1 u docId ev = true := by
        rw [hstep]
        exact hasSubscription_append_left h _
      obtain ⟨ha, hb, hc2⟩ := ih (createSubsStep docId ev acc uid) h'
      refine ⟨ha, ?_, ?_⟩
      · intro s hs
        rcases hb s hs with hmem | hne'
        · rw [hstep] at hmem
          rcases List.mem_append.mp hmem with h1 | h2
          · exact Or.inl h1
          · simp only [List.mem_singleton] at h2
            refine Or.inr ?_
            rw [h2]
            exact hne
        · exact Or.inr hne'
      · intro e he
        rcases hc2 e he with hmem | hne'
        · rw [hstep] at hmem
          rcases List.mem_append.mp hmem with h1 | h2
          · exact Or.inl h1
          · simp only [List.mem_singleton] at h2
            refine Or.inr ?_
            rw [h2]
            exact hne
        · exact Or.inr hne'

/-- Accounting invariant of the side effect: every subscription findable
in the working store either predates the run or was created by it along
with its emitted event. -/
def SubInv (subs : List Subscription) (docId ev : String)
    (acc : List Subscription × List SubEvent) : Prop :=
  ∀ w, hasSubscription acc.1 w docId ev = true →
    hasSubscription subs w docId ev = true ∨
    (Subscription.mk w docId ev true false ∈ acc.1 ∧ SubEvent.mk w docId ∈ acc.2)

/-- One side-effect step preserves the accounting invariant. -/
theorem subInv_step (subs : List Subscription) (docId ev : String)
    (acc : List Subscription × List SubEvent) (uid : String)
    (h : SubInv subs docId ev acc) :
    SubInv subs docId ev (createSubsStep docId ev acc uid) := by
  by_cases hc : hasSubscription acc.1 uid docId ev = true
  · simpa [createSubsStep, hc] using h
  · have hstep : createSubsStep docId ev acc uid
        = (acc.1 ++ [⟨uid, docId, ev, true, false⟩], acc.2 ++ [⟨uid, docId⟩]) := by
      simp [createSubsStep, hc]
    intro w hw
    rw [hstep] at hw
    simp only [hasSubscription, List.any_append, List.any_cons, List.any_nil,
      Bool.or_eq_true, Bool.or_false, Bool.and_eq_true, beq_iff_eq] at hw
    rcases hw with hw | ⟨⟨hwu, _⟩, _⟩
    · rcases h w (by simpa [hasSubscription] using hw) with hl | ⟨hm1, hm2⟩
      · exact Or.inl hl
      · refine Or.inr ⟨?_, ?_⟩
        · rw [hstep]
          exact List.mem_append_left _ hm1
        · rw [hstep]
          exact List.mem_append_left _ hm2
    · subst hwu
      refine Or.inr ⟨?_, ?_⟩
      · rw [hstep]
        exact List.mem_append_right _ (by simp)
      · rw [hstep]
        exact List.mem_append_right _ (by simp)

/-- Every collaborator with no pre-existing subscription row gets exactly
the automatic creation: an enabled, non-deleted subscription appears in
the store and a `subscriptions.create` event is emitted for them. -/
theorem createSubsAux_creates (subs : List Subscription) (docId ev : String) :
    ∀ (l : List String) (acc : List Subscription × List SubEvent),
      SubInv subs docId ev acc →
      ∀ v ∈ l, hasSubscription subs v docId ev = false →
        Subscription.mk v docId ev true false ∈ (createSubsAux docId ev l acc).1 ∧
        SubEvent.mk v docId ∈ (createSubsAux docId ev l acc).2 := by
  intro l
  induction l with
  | nil => intro acc _ v hv; simp at hv
  | cons uid rest ih =>
    intro acc hinv v hv hfalse
    rcases List.mem_cons.mp hv with rfl | hvrest
    · by_cases hc : hasSubscription acc.1 v docId ev = true
      · rcases hinv v hc with hsubs | ⟨hm1, hm2⟩
        · rw [hfalse] at hsubs
          exact absurd hsubs (by simp)
        · exact ⟨mem1_createSubsAux docId ev rest _
              (mem1_createSubsStep docId ev v hm1),
            mem2_createSubsAux docId ev rest _
              (mem2_createSubsStep docId ev v hm2)⟩
      · have hstep : createSubsStep docId ev acc v
            = (acc.1 ++ [⟨v, docId, ev, true, false⟩], acc.2 ++ [⟨v, docId⟩]) := by
          simp [createSubsStep, hc]
        refine ⟨mem1_createSubsAux docId ev rest _ ?_,
          mem2_createSubsAux docId ev rest _ ?_⟩
        · rw [hstep]
          exact List.mem_append_right _ (by simp)
        · rw [hstep]
          exact List.mem_append_right _ (by simp)
    · exact ih (createSubsStep docId ev acc uid)
        (subInv_step subs docId ev acc uid hinv) v hvrest hfalse

/-- The emitted events list the created users in collaborator order: its
user projection is a sublist of the collaborator list. -/
theorem createSubsAux_events_sublist (docId ev : String) :
    ∀ (l : List String) (acc : List Subscription × List SubEvent),
      ∃ t, (createSubsAux docId ev l acc).2 = acc.2 ++ t ∧
        List.Sublist (t.map SubEvent.userId) l := by
  intro l
  induction l with
  | nil => intro acc; exact ⟨[], by simp [createSubsAux], List.nil_sublist _⟩
  | cons uid rest ih =>
    intro acc
    by_cases hc : hasSubscription acc.1 uid docId ev = true
    · obtain ⟨t, ht, hs⟩ := ih (createSubsStep docId ev acc uid)
      have hstep : createSubsStep docId ev acc uid = acc := by
        simp [createSubsStep, hc]
      refine ⟨t, ?_, List.Sublist.cons uid hs⟩
      show (createSubsAux docId ev rest (createSubsStep docId ev acc uid)).2
        = acc.2 ++ t
      rw [ht, hstep]
    · obtain ⟨t, ht, hs⟩ := ih (createSubsStep docId ev acc uid)
      have hstep : createSubsStep docId ev acc uid
          = (acc.1 ++ [⟨uid, docId, ev, true, false⟩], acc.2 ++ [⟨uid, docId⟩]) := by
        simp [createSubsStep, hc]
      refine ⟨⟨uid, docId⟩ :: t, ?_, ?_⟩
      · show (createSubsAux docId ev rest (createSubsStep docId ev acc uid)).2
          = acc.2 ++ (SubEvent.mk uid docId :: t)
        rw [ht, hstep]
        simp
      · simpa using List.Sublist.cons₂ uid hs

/-- What one `BaseEmail.send` call does: the promise outcome seen by the
caller, the metrics incremented, and the errors logged. -/
structure SendOutcome where
  result : Except String Unit
  metrics : List String
  loggedErrors : List String

/-- `BaseEmail.send` (src/server/emails/templates/BaseEmail.tsx, lines
62-112): a `false` from the `beforeSend` hook aborts silently; a failure
of `mailer.sendMail` increments the `email.sending_failed` metric and
rethrows; after a successful send, when notification metadata is present
the `Notification` row is stamped with `emailedAt`, and a failure of that
update is logged and swallowed — `send` still resolves. -/
def send (beforeSendAborted : Bool)
    (sendMail : Except String Unit)
    (notificationId : Option String)
    (updateEmailedAt : Except String Unit) : SendOutcome :=
  if beforeSendAborted then
    ⟨.ok (), [], []⟩
  else
    match sendMail with
    | .error err => ⟨.error err, ["email.sending_failed"], []⟩
    | .ok _ =>
      match notificationId with
      | none => ⟨.ok (), ["email.sent"], []⟩
      | some _ =>
        match updateEmailedAt with
        | .ok _ => ⟨.ok (), ["email.sent"], []⟩
        | .error err => ⟨.ok (), ["email.sent"], ["Failed to update notification: " ++ err]⟩

end Spec2Proof

namespace Spec2Proof

/-- C1: `DocumentHelper.toProsemirror` parses the markup text exactly when
the replicated state is absent (a `Document` with `state = null`, or a
`Revision`, which has no state field); when state is present it returns
the decoding of that state through the replication engine's canonical
mapping (`Y.applyUpdate` on a fresh doc, `yDocToProsemirrorJSON`,
`Node.fromJSON`), and the result does not depend on the markup parser at
all — there is no fallback to parsing the markup text. -/
theorem toProsemirror_state_dispatch {Node YDoc Json : Type}
    (parse parseOther : String → Node) (newYDoc : YDoc)
    (applyUpdate : YDoc → YBytes → YDoc)
    (yDocToProsemirrorJSON : YDoc → Json)
    (nodeFromJSON : Json → Node) (x : DocOrRev) :
    (∀ d, x = .doc d → d.state = none →
      toProsemirror parse newYDoc applyUpdate yDocToProsemirrorJSON nodeFromJSON x
        = parse d.text) ∧
    (∀ r, x = .rev r →
      toProsemirror parse newYDoc applyUpdate yDocToProsemirrorJSON nodeFromJSON x
        = parse r.text) ∧
    (∀ d s, x = .doc d → d.state = some s →
      toProsemirror parse newYDoc applyUpdate yDocToProsemirrorJSON nodeFromJSON x
        = nodeFromJSON (yDocToProsemirrorJSON (applyUpdate newYDoc s)) ∧
      toProsemirror parse newYDoc applyUpdate yDocToProsemirrorJSON nodeFromJSON x
        = toProsemirror parseOther newYDoc applyUpdate yDocToProsemirrorJSON
            nodeFromJSON x) := by
  refine ⟨?_, ?_, ?_⟩
  · rintro d rfl hs
    simp [toProsemirror, hs]
  · rintro r rfl
    simp [toProsemirror]
  · rintro d s rfl hs
    simp [toProsemirror, hs]

/-- C1 witness: concrete evaluations discharging each hypothesis of the
dispatch theorem. -/
theorem toProsemirror_state_dispatch_witness :
    @toProsemirror String (List Nat) (List Nat)
        (fun t => "parsed:" ++ t) [] (fun y s => y ++ s) id
        (fun j => "decoded:" ++ toString j) (.doc ⟨"T", "body", none, none⟩)
      = "parsed:body" ∧
    @toProsemirror String (List Nat) (List Nat)
        (fun t => "parsed:" ++ t) [] (fun y s => y ++ s) id
        (fun j => "decoded:" ++ toString j) (.doc ⟨"T", "body", some [7], none⟩)
      = "decoded:" ++ toString ([7] : List Nat) := by
  constructor
  · exact (toProsemirror_state_dispatch (fun t => "parsed:" ++ t)
      (fun t => "parsed:" ++ t) [] (fun y s => y ++ s) id
      (fun j => "decoded:" ++ toString j) (.doc ⟨"T", "body", none, none⟩)).1
      ⟨"T", "body", none, none⟩ rfl rfl
  · exact ((toProsemirror_state_dispatch (fun t => "parsed:" ++ t)
      (fun t => "parsed:" ++ t) [] (fun y s => y ++ s) id
      (fun j => "decoded:" ++ toString j)
      (.doc ⟨"T", "body", some [7], none⟩)).2.2
      ⟨"T", "body", some [7], none⟩ [7] rfl rfl).1

/-- C2 counterexample: with a concrete renderer whose shell carries the
title, diffing a before document titled "Old title" against an after
revision titled "New title" re-embeds the diffed article into the
**before** rendering's shell, not the after rendering's shell as the claim
states: the serialized result differs from the after-shell re-embedding
and equals the before-shell re-embedding. -/
theorem diff_after_shell_counterexample :
    serializeHtml (diffDocs toHTML0 htmldiff0 (some (.doc beforeDoc0)) (.rev afterRev0))
      ≠ serializeHtml { toHTML0 (.rev afterRev0) with
          article := htmldiff0 (toHTML0 (.doc beforeDoc0)).article
            (toHTML0 (.rev afterRev0)).article } ∧
    serializeHtml (diffDocs toHTML0 htmldiff0 (some (.doc beforeDoc0)) (.rev afterRev0))
      = serializeHtml { toHTML0 (.doc beforeDoc0) with
          article := htmldiff0 (toHTML0 (.doc beforeDoc0)).article
            (toHTML0 (.rev afterRev0)).article } := by
  constructor
  · decide
  · rfl

/-- C10: `DocumentHelper.toEmailDiff` returns the empty string whenever
`before` is absent, for every after document and every instantiation of
the rendering collaborators: notification content is suppressed for
brand-new documents with no prior snapshot. -/
theorem toEmailDiff_no_before_empty (toHTML : DocOrRev → HtmlDoc)
    (htmldiff : String → String → String)
    (toBlocks : HtmlDoc → List Block)
    (serializeItems : List Item → String) (after : DocOrRev) :
    toEmailDiff toHTML htmldiff toBlocks serializeItems none after = "" := rfl

/-- C3 counterexample: an unchanged nonempty paragraph immediately
preceding a changed block is **not** retained when the changed block is
not itself a paragraph: with source blocks `[P (unchanged, nonempty),
UL (changed)]` the compaction drops the paragraph entirely. -/
theorem toEmailDiff_context_nonparagraph_counterexample :
    toEmailDiffBlocks [⟨"P", false, true⟩, ⟨"UL", true, true⟩]
      = [Item.orig 1 ⟨"UL", true, true⟩] ∧
    Item.orig 0 ⟨"P", false, true⟩
      ∉ toEmailDiffBlocks [⟨"P", false, true⟩, ⟨"UL", true, true⟩] := by
  decide

/-- C4 counterexample: with source blocks `[P (changed), UL (unchanged),
P (unchanged, nonempty)]` the unchanged `UL` is dropped between two
retained blocks (the changed paragraph and the trailing-context
paragraph), yet the output contains no break marker at that seam — so the
output does not contain exactly one break marker at each seam where a
run of dropped blocks was eliminated between two retained blocks. -/
theorem toEmailDiff_break_seam_counterexample :
    toEmailDiffBlocks [⟨"P", true, true⟩, ⟨"UL", false, true⟩, ⟨"P", false, true⟩]
      = [Item.orig 0 ⟨"P", true, true⟩, Item.orig 2 ⟨"P", false, true⟩] ∧
    Item.brk
      ∉ toEmailDiffBlocks [⟨"P", true, true⟩, ⟨"UL", false, true⟩, ⟨"P", false, true⟩] := by
  decide

/-- One compaction step only ever appends to the kept prefix (or leaves it
unchanged), so membership in the kept prefix is preserved. -/
theorem mem_out_stepEmailDiff {x : Item} {st : EmailDiffState} (i : Nat)
    (b : Block) (next : Option Block) (hx : x ∈ st.out) :
    x ∈ (stepEmailDiff st i b next).out := by
  unfold stepEmailDiff
  split_ifs <;> simp [hx]

/-- Membership in the kept prefix is preserved by the whole compaction
run. -/
theorem mem_out_runEmailDiff :
    ∀ (l : List Block) (i : Nat) (st : EmailDiffState) {x : Item},
      x ∈ st.out → x ∈ (runEmailDiff i st l).out := by
  intro l
  induction l with
  | nil => intro i st x hx; exact hx
  | cons b rest ih =>
    intro i st x hx
    exact ih (i + 1) _ (mem_out_stepEmailDiff i b rest.head? hx)

/-- One compaction step only appends: the new kept prefix is the old one
followed by some chunk. -/
theorem out_extends_stepEmailDiff (st : EmailDiffState) (i : Nat) (b : Block)
    (next : Option Block) :
    ∃ t, (stepEmailDiff st i b next).out = st.out ++ t := by
  unfold stepEmailDiff
  split_ifs <;> first
    | exact ⟨_, List.append_assoc _ _ _⟩
    | exact ⟨[Item.orig i b], rfl⟩
    | exact ⟨[], (List.append_nil _).symm⟩

/-- The whole compaction run only appends to the kept prefix, so any
consecutive pair of kept items stays consecutive in the final output. -/
theorem out_extends_runEmailDiff :
    ∀ (l : List Block) (i : Nat) (st : EmailDiffState),
      ∃ t, (runEmailDiff i st l).out = st.out ++ t := by
  intro l
  induction l with
  | nil => intro i st; exact ⟨[], (List.append_nil _).symm⟩
  | cons b rest ih =>
    intro i st
    obtain ⟨t1, ht1⟩ := out_extends_stepEmailDiff st i b rest.head?
    obtain ⟨t2, ht2⟩ := ih (i + 1) (stepEmailDiff st i b rest.head?)
    refine ⟨t1 ++ t2, ?_⟩
    show (runEmailDiff (i + 1) (stepEmailDiff st i b rest.head?) rest).out
      = st.out ++ (t1 ++ t2)
    rw [ht2, ht1, List.append_assoc]

/-- An unchanged nonempty paragraph whose source successor is a
diff-marked paragraph is always kept by the compaction (leading context),
from any start index and loop state. -/
theorem lead_context_mem :
    ∀ (l1 : List Block) (i : Nat) (st : EmailDiffState) (p q : Block)
      (l2 : List Block),
      p.hasDiff = false → p.name = "P" → p.hasText = true →
      q.name = "P" → q.hasDiff = true →
      Item.orig (i + l1.length) p ∈ (runEmailDiff i st (l1 ++ p :: q :: l2)).out := by
  intro l1
  induction l1 with
  | nil =>
    intro i st p q l2 h1 h2 h3 h4 h5
    show Item.orig (i + 0) p
      ∈ (runEmailDiff (i + 1) (stepEmailDiff st i p (some q)) (q :: l2)).out
    apply mem_out_runEmailDiff
    simp [stepEmailDiff, isDiffP, h1, h2, h3, h4, h5]
  | cons c l1' ih =>
    intro i st p q l2 h1 h2 h3 h4 h5
    have hidx : i + (c :: l1').length = (i + 1) + l1'.length := by
      simp [List.length_cons]; omega
    rw [hidx]
    exact ih (i + 1) (stepEmailDiff st i c ((l1' ++ p :: q :: l2).head?)) p q l2
      h1 h2 h3 h4 h5

/-- Skipping the dropped run: when the last kept element is a diff-marked
paragraph, a following run of blocks that are unchanged and not nonempty
paragraphs is removed block by block (each fails all three keep
branches), leaving the kept prefix untouched, and the nonempty unchanged
paragraph after the run is then kept — by the leading-context branch, or
by the trailing-context branch through its live-DOM previous element
sibling, which is still that diff-marked paragraph. -/
theorem trail_context_mem_skip :
    ∀ (mid : List Block) (i : Nat) (st : EmailDiffState) (p : Block)
      (l2 : List Block),
      isDiffPItem st.out.getLast? = true →
      (∀ m ∈ mid, m.hasDiff = false ∧ (m.name = "P" → m.hasText = false)) →
      p.name = "P" → p.hasText = true → p.hasDiff = false →
      Item.orig (i + mid.length) p
        ∈ (runEmailDiff i st (mid ++ p :: l2)).out := by
  intro mid
  induction mid with
  | nil =>
    intro i st p l2 hlast _ h1 h2 h3
    show Item.orig (i + 0) p
      ∈ (runEmailDiff (i + 1) (stepEmailDiff st i p l2.head?) l2).out
    apply mem_out_runEmailDiff
    by_cases hnext : isDiffP l2.head? = true
    · simp [stepEmailDiff, h1, h2, h3, hnext]
    · have hnext' : isDiffP l2.head? = false := by
        cases hx : isDiffP l2.head? with
        | true => exact absurd hx hnext
        | false => rfl
      simp [stepEmailDiff, h1, h2, h3, hnext', hlast]
  | cons m mid' ih =>
    intro i st p l2 hlast hmid h1 h2 h3
    obtain ⟨hm1, hm2⟩ := hmid m (by simp)
    have hnext : isDiffP ((mid' ++ p :: l2).head?) = false := by
      cases mid' with
      | nil => simp [isDiffP, h3]
      | cons m2 mid'' =>
        have := (hmid m2 (by simp)).1
        simp [isDiffP, this]
    have hb2 : (m.name == "P" && m.hasText && isDiffP (mid' ++ p :: l2).head?)
        = false := by
      rw [hnext]
      simp
    have hb3 : (m.name == "P" && m.hasText && isDiffPItem st.out.getLast?)
        = false := by
      by_cases hname : m.name = "P"
      · rw [hm2 hname]
        simp
      · have hfalse : (m.name == "P") = false := by
          simp only [beq_eq_false_iff_ne]
          exact hname
        rw [hfalse]
        simp
    have hstep : stepEmailDiff st i m ((mid' ++ p :: l2).head?)
        = { st with prevRemoved := true } := by
      unfold stepEmailDiff
      rw [hm1, hb2, hb3]
      simp
    have hrec := ih (i + 1) { st with prevRemoved := true } p l2 hlast
      (fun m' hm' => hmid m' (by simp [hm'])) h1 h2 h3
    have hidx : i + (m :: mid').length = (i + 1) + mid'.length := by
      simp [List.length_cons]; omega
    rw [hidx]
    show Item.orig ((i + 1) + mid'.length) p
      ∈ (runEmailDiff (i + 1) (stepEmailDiff st i m ((mid' ++ p :: l2).head?))
          (mid' ++ p :: l2)).out
    rw [hstep]
    exact hrec

/-- An unchanged nonempty paragraph whose live-DOM previous element
sibling is a diff-marked paragraph is always kept by the compaction:
after a changed paragraph, any run of unchanged blocks that are not
nonempty paragraphs is dropped without touching the kept prefix, and
the nonempty unchanged paragraph that follows the run is retained as
context of that changed paragraph. The source-adjacent case is
`mid = []`. -/
theorem trail_context_mem :
    ∀ (l1 : List Block) (i : Nat) (st : EmailDiffState) (d : Block)
      (mid : List Block) (p : Block) (l2 : List Block),
      d.name = "P" → d.hasDiff = true →
      (∀ m ∈ mid, m.hasDiff = false ∧ (m.name = "P" → m.hasText = false)) →
      p.name = "P" → p.hasText = true → p.hasDiff = false →
      Item.orig (i + l1.length + 1 + mid.length) p
        ∈ (runEmailDiff i st (l1 ++ d :: (mid ++ p :: l2))).out := by
  intro l1
  induction l1 with
  | nil =>
    intro i st d mid p l2 hd1 hd2 hmid h1 h2 h3
    show Item.orig (i + 0 + 1 + mid.length) p
      ∈ (runEmailDiff (i + 1) (stepEmailDiff st i d ((mid ++ p :: l2).head?))
          (mid ++ p :: l2)).out
    set st1 := stepEmailDiff st i d ((mid ++ p :: l2).head?) with hst1
    have hout1 : st1.out
        = (st.out ++ (if st.prevRemoved && st.prevClipped then [Item.brk] else []))
          ++ [Item.orig i d] := by
      simp [hst1, stepEmailDiff, hd2, List.append_assoc]
    have hlast : isDiffPItem st1.out.getLast? = true := by
      rw [hout1, List.getLast?_concat]
      simp [isDiffPItem, Item.name, Item.hasDiff, hd1, hd2]
    have hrec := trail_context_mem_skip mid (i + 1) st1 p l2 hlast hmid h1 h2 h3
    have hidx : i + 0 + 1 + mid.length = (i + 1) + mid.length := by omega
    rw [hidx]
    exact hrec
  | cons c l1' ih =>
    intro i st d mid p l2 hd1 hd2 hmid h1 h2 h3
    have hidx : i + (c :: l1').length + 1 + mid.length
        = (i + 1) + l1'.length + 1 + mid.length := by
      simp [List.length_cons]; omega
    rw [hidx]
    exact ih (i + 1) (stepEmailDiff st i c ((l1' ++ d :: (mid ++ p :: l2)).head?))
      d mid p l2 hd1 hd2 hmid h1 h2 h3

/-- Characterization of retained blocks: every block the compaction keeps
either contains a diff marker, or is a nonempty paragraph kept as
context — its source successor is a diff-marked paragraph (leading
context), or its immediate predecessor in the compacted output is a kept
diff-marked paragraph (its live-DOM previous element sibling at
processing time, trailing context; the adjacency survives to the final
output because the loop only appends). -/
theorem run_mem_charac :
    ∀ (l : List Block) (i0 : Nat) (st : EmailDiffState) (i : Nat) (b : Block),
      Item.orig i b ∈ (runEmailDiff i0 st l).out →
      Item.orig i b ∈ st.out ∨
      b.hasDiff = true ∨
      (b.name = "P" ∧ b.hasText = true ∧
        ((∃ k, i = i0 + k ∧
            ∃ q, l[k + 1]? = some q ∧ q.name = "P" ∧ q.hasDiff = true) ∨
         (∃ j d t1 t2, (runEmailDiff i0 st l).out
              = t1 ++ Item.orig j d :: Item.orig i b :: t2 ∧
            d.name = "P" ∧ d.hasDiff = true))) := by
  intro l
  induction l with
  | nil => intro i0 st i b h; exact Or.inl h
  | cons c rest ih =>
    intro i0 st i b h
    have hrun : runEmailDiff i0 st (c :: rest)
        = runEmailDiff (i0 + 1) (stepEmailDiff st i0 c rest.head?) rest := rfl
    rw [hrun] at h ⊢
    rcases ih (i0 + 1) (stepEmailDiff st i0 c rest.head?) i b h
      with hmem | hdiff | ⟨hn, ht, hctx⟩
    · -- the item is already in the prefix right after processing `c`
      cases h1 : c.hasDiff with
      | true =>
        -- branch 1: `c` contains a diff marker
        have hout : (stepEmailDiff st i0 c rest.head?).out
            = st.out ++ (if st.prevRemoved && st.prevClipped then [Item.brk] else [])
              ++ [Item.orig i0 c] := by
          simp [stepEmailDiff, h1]
        rw [hout] at hmem
        simp only [List.mem_append, List.mem_singleton] at hmem
        rcases hmem with (hmem' | hbrk) | heq
        · exact Or.inl hmem'
        · exfalso; revert hbrk; split <;> simp
        · injection heq with hi hb
          subst hi; subst hb
          exact Or.inr (Or.inl h1)
      | false =>
        cases h2 : (c.name == "P" && c.hasText && isDiffP rest.head?) with
        | true =>
          -- branch 2: leading context before a diff-marked paragraph
          have hout : (stepEmailDiff st i0 c rest.head?).out
              = st.out ++ (if st.prevClipped then [Item.brk] else [])
                ++ [Item.orig i0 c] := by
            simp [stepEmailDiff, h1, h2]
          cases rest with
          | nil => simp [isDiffP] at h2
          | cons r rs =>
            simp only [List.head?_cons, isDiffP, Bool.and_eq_true, beq_iff_eq] at h2
            obtain ⟨⟨hcn, hct⟩, hr1, hr2⟩ := h2
            rw [hout] at hmem
            simp only [List.mem_append, List.mem_singleton] at hmem
            rcases hmem with (hmem' | hbrk) | heq
            · exact Or.inl hmem'
            · exfalso; revert hbrk; split <;> simp
            · injection heq with hi hb
              subst hi; subst hb
              refine Or.inr (Or.inr ⟨hcn, hct, Or.inl ⟨0, by omega, r, ?_, hr1, hr2⟩⟩)
              simp
        | false =>
          cases h3 : (c.name == "P" && c.hasText && isDiffPItem st.out.getLast?) with
          | true =>
            -- branch 3: trailing context after a kept diff-marked paragraph
            have hout : (stepEmailDiff st i0 c rest.head?).out
                = st.out ++ [Item.orig i0 c] := by
              simp [stepEmailDiff, h1, h2, h3]
            simp only [Bool.and_eq_true, beq_iff_eq] at h3
            obtain ⟨⟨hcn, hct⟩, hcd⟩ := h3
            cases hlast : st.out.getLast? with
            | none => rw [hlast] at hcd; simp [isDiffPItem] at hcd
            | some pit =>
              rw [hlast] at hcd
              cases pit with
              | brk => simp [isDiffPItem, Item.name] at hcd
              | orig j d =>
                simp only [isDiffPItem, Item.name, Item.hasDiff, Bool.and_eq_true,
                  beq_iff_eq] at hcd
                obtain ⟨hd1, hd2⟩ := hcd
                obtain ⟨init, hinit⟩ := List.getLast?_eq_some_iff.mp hlast
                rw [hout] at hmem
                simp only [List.mem_append, List.mem_singleton] at hmem
                rcases hmem with hmem' | heq
                · exact Or.inl hmem'
                · injection heq with hi hb
                  subst hi; subst hb
                  obtain ⟨t, ht⟩ := out_extends_runEmailDiff rest (i + 1)
                    (stepEmailDiff st i b rest.head?)
                  refine Or.inr (Or.inr ⟨hcn, hct,
                    Or.inr ⟨j, d, init, t, ?_, hd1, hd2⟩⟩)
                  rw [ht, hout, hinit]
                  simp
          | false =>
            -- branch 4: `c` is removed, the prefix is unchanged
            have hout : (stepEmailDiff st i0 c rest.head?).out = st.out := by
              simp [stepEmailDiff, h1, h2, h3]
            rw [hout] at hmem
            exact Or.inl hmem
    · exact Or.inr (Or.inl hdiff)
    · refine Or.inr (Or.inr ⟨hn, ht, ?_⟩)
      rcases hctx with ⟨k, hik, q, hq, hq1, hq2⟩ | hkept
      · refine Or.inl ⟨k + 1, by omega, q, ?_, hq1, hq2⟩
        simpa using hq
      · exact Or.inr hkept

/-- C3 amended: context retention in the `toEmailDiff` compaction applies
only to nonempty paragraphs whose adjacent changed sibling is itself a
paragraph, with trailing adjacency measured in the live (already
compacted) DOM. (a) An unchanged nonempty paragraph immediately followed
in the source by a changed paragraph is retained as leading context.
(b) An unchanged nonempty paragraph whose live-DOM previous element
sibling is a changed paragraph is retained as trailing context: a run of
dropped blocks (unchanged blocks that are not nonempty paragraphs)
between the changed paragraph and it does not break the adjacency; the
source-adjacent case is the empty run. (c) Every retained unchanged
block is a nonempty paragraph whose source successor is a changed
paragraph, or whose immediate predecessor in the compacted output is a
retained changed paragraph — so unchanged non-paragraph blocks are never
retained as context, blocks adjacent only to a changed non-paragraph
block are dropped, and retention does not chain: each context paragraph
is directly adjacent to a changed paragraph, never to another context
paragraph. -/
theorem toEmailDiff_context_paragraph_policy :
    (∀ (l1 : List Block) (p q : Block) (l2 : List Block),
        p.name = "P" → p.hasText = true → p.hasDiff = false →
        q.name = "P" → q.hasDiff = true →
        Item.orig l1.length p ∈ toEmailDiffBlocks (l1 ++ p :: q :: l2)) ∧
    (∀ (l1 : List Block) (d : Block) (mid : List Block) (p : Block)
        (l2 : List Block),
        d.name = "P" → d.hasDiff = true →
        (∀ m ∈ mid, m.hasDiff = false ∧ (m.name = "P" → m.hasText = false)) →
        p.name = "P" → p.hasText = true → p.hasDiff = false →
        Item.orig (l1.length + 1 + mid.length) p
          ∈ toEmailDiffBlocks (l1 ++ d :: (mid ++ p :: l2))) ∧
    (∀ (bs : List Block) (i : Nat) (b : Block),
        Item.orig i b ∈ toEmailDiffBlocks bs → b.hasDiff = false →
        b.name = "P" ∧ b.hasText = true ∧
        ((∃ q, bs[i + 1]? = some q ∧ q.name = "P" ∧ q.hasDiff = true) ∨
         (∃ j d t1 t2, toEmailDiffBlocks bs
              = t1 ++ Item.orig j d :: Item.orig i b :: t2 ∧
            d.name = "P" ∧ d.hasDiff = true))) := by
  refine ⟨?_, ?_, ?_⟩
  · intro l1 p q l2 h1 h2 h3 h4 h5
    have := lead_context_mem l1 0 ⟨[], false, false⟩ p q l2 h3 h1 h2 h4 h5
    simpa [toEmailDiffBlocks] using this
  · intro l1 d mid p l2 hd1 hd2 hmid h1 h2 h3
    have := trail_context_mem l1 0 ⟨[], false, false⟩ d mid p l2 hd1 hd2 hmid
      h1 h2 h3
    simpa [toEmailDiffBlocks] using this
  · intro bs i b hmem hnd
    rcases run_mem_charac bs 0 ⟨[], false, false⟩ i b hmem
      with hfalse | hdiff | ⟨hn, ht, hctx⟩
    · simp at hfalse
    · exact absurd hdiff (by simp [hnd])
    · refine ⟨hn, ht, ?_⟩
      rcases hctx with ⟨k, hik, q, hq, hq1, hq2⟩ | ⟨j, d, t1, t2, heq, hd1, hd2⟩
      · refine Or.inl ⟨q, ?_, hq1, hq2⟩
        have : i = k := by omega
        subst this
        exact hq
      · exact Or.inr ⟨j, d, t1, t2, heq, hd1, hd2⟩

/-- Well-formedness of break markers in a compacted output: every break
marker is immediately followed by a retained block — equivalently, no two
consecutive break markers and no trailing break marker. -/
def brkOk : List Item → Bool
  | [] => true
  | Item.orig _ _ :: rest => brkOk rest
  | [Item.brk] => false
  | Item.brk :: Item.brk :: _ => false
  | Item.brk :: Item.orig j c :: rest => brkOk (Item.orig j c :: rest)

/-- Appending a retained block preserves break-marker well-formedness. -/
theorem brkOk_append_orig (i : Nat) (b : Block) :
    ∀ (l : List Item), brkOk l = true → brkOk (l ++ [Item.orig i b]) = true := by
  intro l
  induction l with
  | nil => intro _; simp [brkOk]
  | cons x rest ih =>
    cases x with
    | orig j c =>
      intro h
      have h' : brkOk rest = true := by simpa [brkOk] using h
      simpa [brkOk] using ih h'
    | brk =>
      cases rest with
      | nil => intro h; simp [brkOk] at h
      | cons y rest' =>
        cases y with
        | brk => intro h; simp [brkOk] at h
        | orig j c =>
          intro h
          have h' : brkOk (Item.orig j c :: rest') = true := by
            simpa [brkOk] using h
          simpa [brkOk] using ih h'

/-- Appending a break marker directly followed by a retained block
preserves break-marker well-formedness. -/
theorem brkOk_append_brk_orig (i : Nat) (b : Block) :
    ∀ (l : List Item), brkOk l = true →
      brkOk (l ++ [Item.brk, Item.orig i b]) = true := by
  intro l
  induction l with
  | nil => intro _; simp [brkOk]
  | cons x rest ih =>
    cases x with
    | orig j c =>
      intro h
      have h' : brkOk rest = true := by simpa [brkOk] using h
      simpa [brkOk] using ih h'
    | brk =>
      cases rest with
      | nil => intro h; simp [brkOk] at h
      | cons y rest' =>
        cases y with
        | brk => intro h; simp [brkOk] at h
        | orig j c =>
          intro h
          have h' : brkOk (Item.orig j c :: rest') = true := by
            simpa [brkOk] using h
          simpa [brkOk] using ih h'

/-- Appending to a nonempty kept prefix keeps the first element, so a
non-break first retained block stays first. -/
theorem head_ne_brk_append {l : List Item} (h : l.head? ≠ some Item.brk)
    (t : List Item) (horig : ∀ x ∈ t.head?, x ≠ Item.brk ∨ l ≠ []) :
    (l ++ t).head? ≠ some Item.brk := by
  cases l with
  | nil =>
    simp only [List.nil_append]
    cases ht : t.head? with
    | none => simp [ht]
    | some x =>
      have := horig x (by simp [ht])
      rcases this with hx | hne
      · simp [ht]; exact fun hc => hx (by simpa using hc)
      · exact absurd rfl hne
  | cons z zs => simpa using h

/-- Break-marker invariant of the compaction loop state: well-formed
breaks, the first kept element is not a break, once a diff block has been
clipped some kept block contains a diff marker, and every break implies a
kept diff block. -/
def BreakInv (st : EmailDiffState) : Prop :=
  brkOk st.out = true ∧
  st.out.head? ≠ some Item.brk ∧
  (st.prevClipped = true → ∃ j d, Item.orig j d ∈ st.out ∧ d.hasDiff = true) ∧
  (Item.brk ∈ st.out → ∃ j d, Item.orig j d ∈ st.out ∧ d.hasDiff = true)

/-- One compaction step preserves the break-marker invariant. -/
theorem breakInv_step (st : EmailDiffState) (i : Nat) (b : Block)
    (next : Option Block) (h : BreakInv st) : BreakInv (stepEmailDiff st i b next) := by
  obtain ⟨hok, hhead, hclip, hbrk⟩ := h
  have hlift : ∀ (t : List Item),
      (∃ j d, Item.orig j d ∈ st.out ∧ d.hasDiff = true) →
      ∃ j d, Item.orig j d ∈ st.out ++ t ∧ d.hasDiff = true := by
    rintro t ⟨j, d, hm, hd⟩
    exact ⟨j, d, List.mem_append_left t hm, hd⟩
  have hne : ∀ (hcl : st.prevClipped = true), st.out ≠ [] := by
    intro hcl
    obtain ⟨j, d, hm, _⟩ := hclip hcl
    exact List.ne_nil_of_mem hm
  have horigside : ∀ (x : Item), x ∈ ([Item.orig i b] : List Item).head? →
      x ≠ Item.brk ∨ st.out ≠ [] := by
    intro x hx
    simp only [List.head?_cons, Option.mem_def, Option.some.injEq] at hx
    subst hx
    exact Or.inl (by simp)
  cases h1 : b.hasDiff with
  | true =>
    by_cases hin : (st.prevRemoved && st.prevClipped) = true
    · have hcl : st.prevClipped = true := by
        simp only [Bool.and_eq_true] at hin
        exact hin.2
      have hst : stepEmailDiff st i b next
          = { out := st.out ++ [Item.brk, Item.orig i b]
              prevRemoved := false
              prevClipped := true } := by
        simp [stepEmailDiff, h1, hin]
      rw [hst]
      refine ⟨?_, ?_, ?_, ?_⟩
      · exact brkOk_append_brk_orig i b st.out hok
      · exact head_ne_brk_append hhead _ (fun x _ => Or.inr (hne hcl))
      · intro _
        exact ⟨i, b, by simp, h1⟩
      · intro _
        exact ⟨i, b, by simp, h1⟩
    · have hst : stepEmailDiff st i b next
          = { out := st.out ++ [Item.orig i b]
              prevRemoved := false
              prevClipped := true } := by
        simp [stepEmailDiff, h1, hin]
      rw [hst]
      refine ⟨?_, ?_, ?_, ?_⟩
      · exact brkOk_append_orig i b st.out hok
      · exact head_ne_brk_append hhead _ horigside
      · intro _
        exact ⟨i, b, by simp, h1⟩
      · intro _
        exact ⟨i, b, by simp, h1⟩
  | false =>
    cases h2 : (b.name == "P" && b.hasText && isDiffP next) with
    | true =>
      by_cases hin : st.prevClipped = true
      · have hst : stepEmailDiff st i b next
            = { out := st.out ++ [Item.brk, Item.orig i b]
                prevRemoved := false
                prevClipped := st.prevClipped } := by
          simp [stepEmailDiff, h1, h2, hin]
        rw [hst]
        refine ⟨?_, ?_, ?_, ?_⟩
        · exact brkOk_append_brk_orig i b st.out hok
        · exact head_ne_brk_append hhead _ (fun x _ => Or.inr (hne hin))
        · intro _
          exact hlift _ (hclip hin)
        · intro _
          exact hlift _ (hclip hin)
      · have hin' : st.prevClipped = false := by
          cases hx : st.prevClipped with
          | true => exact absurd hx hin
          | false => rfl
        have hst : stepEmailDiff st i b next
            = { out := st.out ++ [Item.orig i b]
                prevRemoved := false
                prevClipped := st.prevClipped } := by
          simp [stepEmailDiff, h1, h2, hin']
        rw [hst]
        refine ⟨?_, ?_, ?_, ?_⟩
        · exact brkOk_append_orig i b st.out hok
        · exact head_ne_brk_append hhead _ horigside
        · intro hcl
          exact absurd hcl hin
        · intro hmem
          simp only [List.mem_append, List.mem_singleton] at hmem
          rcases hmem with hmem | hmem
          · exact hlift _ (hbrk hmem)
          · exact absurd hmem (by simp)
    | false =>
      cases h3 : (b.name == "P" && b.hasText && isDiffPItem st.out.getLast?) with
      | true =>
        have hst : stepEmailDiff st i b next
            = { out := st.out ++ [Item.orig i b]
                prevRemoved := false
                prevClipped := st.prevClipped } := by
          simp [stepEmailDiff, h1, h2, h3]
        rw [hst]
        refine ⟨?_, ?_, ?_, ?_⟩
        · exact brkOk_append_orig i b st.out hok
        · exact head_ne_brk_append hhead _ horigside
        · intro hcl
          exact hlift _ (hclip hcl)
        · intro hmem
          simp only [List.mem_append, List.mem_singleton] at hmem
          rcases hmem with hmem | hmem
          · exact hlift _ (hbrk hmem)
          · exact absurd hmem (by simp)
      | false =>
        have hst : stepEmailDiff st i b next
            = { out := st.out
                prevRemoved := true
                prevClipped := st.prevClipped } := by
          simp [stepEmailDiff, h1, h2, h3]
        rw [hst]
        exact ⟨hok, hhead, fun hcl => hclip hcl, fun hm => hbrk hm⟩

/-- C4 amended: the compacted output of `toEmailDiff` never contains two
consecutive break markers and never a break marker before the first
retained block; every break marker is immediately followed by a retained
block, and break markers appear only once some changed block has been
retained. (The claim's "exactly one break marker at each seam where a run
of dropped blocks was eliminated between two retained blocks" fails: a
seam in front of a trailing-context paragraph gets no break marker, and a
leading-context paragraph may be preceded by a break marker even when
nothing was dropped at that seam.) -/
theorem toEmailDiff_break_marker_invariants (bs : List Block) :
    brkOk (toEmailDiffBlocks bs) = true ∧
    (toEmailDiffBlocks bs).head? ≠ some Item.brk ∧
    (Item.brk ∈ toEmailDiffBlocks bs →
      ∃ j d, Item.orig j d ∈ toEmailDiffBlocks bs ∧ d.hasDiff = true) := by
  have hrun : ∀ (l : List Block) (i : Nat) (st : EmailDiffState),
      BreakInv st → BreakInv (runEmailDiff i st l) := by
    intro l
    induction l with
    | nil => intro i st h; exact h
    | cons c rest ih =>
      intro i st h
      exact ih (i + 1) _ (breakInv_step st i c rest.head? h)
  have h := hrun bs 0 ⟨[], false, false⟩ ⟨rfl, by simp, by simp, by simp⟩
  exact ⟨h.1, h.2.1, h.2.2.2⟩

/-- C2 amended: `DocumentHelper.diff` with `before` present extracts the
two article subtrees, diffs only those (layout and styling scaffolding are
ignored), and re-embeds the diffed subtree into the shell of the
**before** rendering; the returned document is the before rendering with
its article content replaced by the diffed content. With `before` absent
it is just the after rendering. -/
theorem diff_embeds_before_shell {toHTML : DocOrRev → HtmlDoc}
    {htmldiff : String → String → String} (b a : DocOrRev) :
    diffDocs toHTML htmldiff (some b) a
      = { toHTML b with
          article := htmldiff (toHTML b).article (toHTML a).article } ∧
    diffDocs toHTML htmldiff none a = toHTML a := by
  exact ⟨rfl, rfl⟩

/-- C5: `applyMarkdownToDocument` sets the markup text to the given text
(append = false) or to the existing text concatenated with the given text
(append = true); with replicated state present and a defined replicated
root it merges the delta of the newly parsed tree into the **existing**
state (the new state is `mergeUpdate` of the old state, never a state
built from scratch); and it returns an error — not a silently swallowed
one — exactly when replicated state exists but the replicated root
(`type.doc`) is undefined. -/
theorem applyMarkdownToDocument_spec {Node : Type}
    (parse : String → Node) (typeDocDefined : YBytes → Bool)
    (mergeUpdate : YBytes → Node → YBytes)
    (document : Document) (text : String) (append : Bool) :
    (document.state = none →
      applyMarkdownToDocument parse typeDocDefined mergeUpdate document text append
        = .ok { document with
                  text := if append then document.text ++ text else text }) ∧
    (∀ s, document.state = some s → typeDocDefined s = true →
      applyMarkdownToDocument parse typeDocDefined mergeUpdate document text append
        = .ok { document with
                  text := if append then document.text ++ text else text
                  state := some (mergeUpdate s
                    (parse (if append then document.text ++ text else text))) }) ∧
    (∀ s, document.state = some s → typeDocDefined s = false →
      applyMarkdownToDocument parse typeDocDefined mergeUpdate document text append
        = .error "type.doc not found") ∧
    ((∃ e, applyMarkdownToDocument parse typeDocDefined mergeUpdate document text append
        = .error e) ↔
      (∃ s, document.state = some s ∧ typeDocDefined s = false)) := by
  have h1 : document.state = none →
      applyMarkdownToDocument parse typeDocDefined mergeUpdate document text append
        = .ok { document with
                  text := if append then document.text ++ text else text } := by
    intro hs
    simp [applyMarkdownToDocument, hs]
  have h2 : ∀ s, document.state = some s → typeDocDefined s = true →
      applyMarkdownToDocument parse typeDocDefined mergeUpdate document text append
        = .ok { document with
                  text := if append then document.text ++ text else text
                  state := some (mergeUpdate s
                    (parse (if append then document.text ++ text else text))) } := by
    intro s hs ht
    simp [applyMarkdownToDocument, hs, ht]
  have h3 : ∀ s, document.state = some s → typeDocDefined s = false →
      applyMarkdownToDocument parse typeDocDefined mergeUpdate document text append
        = .error "type.doc not found" := by
    intro s hs ht
    simp [applyMarkdownToDocument, hs, ht]
  refine ⟨h1, h2, h3, ?_⟩
  constructor
  · rintro ⟨e, he⟩
    cases hs : document.state with
    | none => rw [h1 hs] at he; simp at he
    | some s =>
      by_cases ht : typeDocDefined s = true
      · rw [h2 s hs ht] at he; simp at he
      · have ht' : typeDocDefined s = false := by
          cases hx : typeDocDefined s with
          | true => exact absurd hx ht
          | false => rfl
        exact ⟨s, rfl, ht'⟩
  · rintro ⟨s, hs, ht⟩
    exact ⟨"type.doc not found", h3 s hs ht⟩

/-- C5 witness: concrete evaluations discharging each hypothesis of the
`applyMarkdownToDocument` theorem. -/
theorem applyMarkdownToDocument_spec_witness :
    @applyMarkdownToDocument String id (fun _ => true)
        (fun s _ => s ++ [9]) ⟨"T", "old", some [1], none⟩ "+new" true
      = .ok ⟨"T", "old+new", some [1, 9], none⟩ ∧
    @applyMarkdownToDocument String id (fun _ => false)
        (fun s _ => s) ⟨"T", "old", some [1], none⟩ "new" false
      = .error "type.doc not found" ∧
    @applyMarkdownToDocument String id (fun _ => true)
        (fun s _ => s) ⟨"T", "old", none, none⟩ "new" false
      = .ok ⟨"T", "new", none, none⟩ := by
  refine ⟨?_, ?_, ?_⟩
  · have := (@applyMarkdownToDocument_spec String id (fun _ => true)
      (fun s _ => s ++ [9]) ⟨"T", "old", some [1], none⟩ "+new" true).2.1
      [1] rfl rfl
    simpa using this
  · exact (@applyMarkdownToDocument_spec String id (fun _ => false)
      (fun s _ => s) ⟨"T", "old", some [1], none⟩ "new" false).2.2.1 [1] rfl rfl
  · have := (@applyMarkdownToDocument_spec String id (fun _ => true)
      (fun s _ => s) ⟨"T", "old", none, none⟩ "new" false).1 rfl
    simpa using this

/-- C6: `onLoadDocument` is a no-op returning nothing when the in-memory
replicated structure is already populated; otherwise, when persisted
binary state is present it is decoded and returned with the row left
unchanged, and when absent an initial y-doc is derived from the markup
text, its encoding is persisted onto the row within the same atomic
transition, and it is returned. -/
theorem onLoadDocument_spec {YDoc : Type}
    (applyUpdate : YBytes → YDoc) (markdownToYDoc : String → YDoc)
    (encodeStateAsUpdate : YDoc → YBytes)
    (inMemoryPopulated : Bool) (row : DocumentRow) :
    (inMemoryPopulated = true →
      onLoadDocument applyUpdate markdownToYDoc encodeStateAsUpdate
        inMemoryPopulated row = none) ∧
    (∀ s, inMemoryPopulated = false → row.state = some s →
      onLoadDocument applyUpdate markdownToYDoc encodeStateAsUpdate
        inMemoryPopulated row = some (applyUpdate s, row)) ∧
    (inMemoryPopulated = false → row.state = none →
      onLoadDocument applyUpdate markdownToYDoc encodeStateAsUpdate
        inMemoryPopulated row
        = some (markdownToYDoc row.text,
            { row with
                state := some (encodeStateAsUpdate (markdownToYDoc row.text)) })) := by
  refine ⟨?_, ?_, ?_⟩
  · intro hp
    simp [onLoadDocument, hp]
  · intro s hp hs
    simp [onLoadDocument, hp, hs]
  · intro hp hs
    simp [onLoadDocument, hp, hs]

/-- C6 witness: concrete evaluations discharging each hypothesis of the
`onLoadDocument` theorem. -/
theorem onLoadDocument_spec_witness :
    @onLoadDocument (List Nat) id (fun _ => [3]) id true ⟨"d1", "text", some [5]⟩
      = none ∧
    @onLoadDocument (List Nat) id (fun _ => [3]) id false ⟨"d1", "text", some [5]⟩
      = some ([5], ⟨"d1", "text", some [5]⟩) ∧
    @onLoadDocument (List Nat) id (fun _ => [3]) id false ⟨"d1", "text", none⟩
      = some ([3], ⟨"d1", "text", some [3]⟩) := by
  refine ⟨?_, ?_, ?_⟩
  · exact (@onLoadDocument_spec (List Nat) id (fun _ => [3]) id true
      ⟨"d1", "text", some [5]⟩).1 rfl
  · exact (@onLoadDocument_spec (List Nat) id (fun _ => [3]) id false
      ⟨"d1", "text", some [5]⟩).2.1 [5] rfl rfl
  · have := (@onLoadDocument_spec (List Nat) id (fun _ => [3]) id false
      ⟨"d1", "text", none⟩).2.2 rfl rfl
    simpa using this

/-- C7: `onStoreDocument` clears the accumulated editor entry for the
document name; with no accumulated set it falls back to the triggering
connection's user; with a nonempty accumulated set the attributed author
is the set's last element, which belongs to the set; and a failure of the
downstream document persistence is caught (the outcome records a logged
error instead of propagating — the function is total and returns the
same cleared entry and author either way). -/
theorem onStoreDocument_spec
    (persist : Option String → Except String Unit)
    (entry : Option (List (Option String))) (ctxUser : Option String) :
    (onStoreDocument persist entry ctxUser).entryAfter = none ∧
    (entry = none → (onStoreDocument persist entry ctxUser).author = ctxUser) ∧
    (∀ s u, entry = some s → s.getLast? = some (some u) →
      (onStoreDocument persist entry ctxUser).author = some u ∧ some u ∈ s) ∧
    ((onStoreDocument persist entry ctxUser).errorLogged = true ↔
      ∃ e, persist (onStoreDocument persist entry ctxUser).author = .error e) := by
  have hauthor : (onStoreDocument persist entry ctxUser).author
      = storeAuthor entry ctxUser := by
    unfold onStoreDocument
    cases persist (storeAuthor entry ctxUser) <;> rfl
  have hafter : (onStoreDocument persist entry ctxUser).entryAfter = none := by
    unfold onStoreDocument
    cases persist (storeAuthor entry ctxUser) <;> rfl
  refine ⟨hafter, ?_, ?_, ?_⟩
  · intro he
    rw [hauthor, he]
    simp [storeAuthor]
  · intro s u he hl
    constructor
    · rw [hauthor, he]
      simp [storeAuthor, hl]
    · exact List.mem_of_mem_getLast? hl
  · rw [hauthor]
    unfold onStoreDocument
    cases hp : persist (storeAuthor entry ctxUser) with
    | ok _ => simp
    | error e => simp

/-- C7 witness: concrete evaluations discharging each hypothesis of the
`onStoreDocument` theorem. -/
theorem onStoreDocument_spec_witness :
    (onStoreDocument (fun _ => .ok ()) (some [some "u1", some "u2"]) (some "c")).author
      = some "u2" ∧
    (onStoreDocument (fun _ => .ok ()) none (some "c")).author = some "c" ∧
    (onStoreDocument (fun _ => .error "db down") none (some "c")).errorLogged = true := by
  refine ⟨?_, ?_, ?_⟩
  · exact ((onStoreDocument_spec (fun _ => .ok ())
      (some [some "u1", some "u2"]) (some "c")).2.2.1 [some "u1", some "u2"] "u2"
      rfl rfl).1
  · exact (onStoreDocument_spec (fun _ => .ok ()) none (some "c")).2.1 rfl
  · exact ((onStoreDocument_spec (fun _ => .error "db down") none
      (some "c")).2.2.2).mpr ⟨"db down", rfl⟩

/-- The editor-accumulation step never leaves an empty set in the map: an
entry produced by `onChange` always holds at least one editor, so the
store-time fallback for an absent entry is exactly the "set is empty"
case. -/
theorem onChangeEntry_ne_nil (entry : Option (List (Option String)))
    (uid : Option String) :
    ∀ l, onChangeEntry entry uid = some l → l ≠ [] := by
  intro l hl
  unfold onChangeEntry at hl
  by_cases hm : uid ∈ entry.getD []
  · rw [if_pos hm] at hl
    injection hl with hl
    subst hl
    exact List.ne_nil_of_mem hm
  · rw [if_neg hm] at hl
    injection hl with hl
    subst hl
    simp

/-- C9: in `BaseEmail.send`, a failure of the mail delivery itself
increments the `email.sending_failed` metric and propagates the exception
to the caller (the rejection seen by the caller is exactly a mail
failure); a failure to stamp the Notification's `emailedAt` after a
successful send is logged and swallowed, so `send` still resolves
successfully. -/
theorem send_failure_policy (beforeSendAborted : Bool)
    (sendMail : Except String Unit) (notificationId : Option String)
    (updateEmailedAt : Except String Unit) :
    (∀ e, beforeSendAborted = false → sendMail = .error e →
      send beforeSendAborted sendMail notificationId updateEmailedAt
        = ⟨.error e, ["email.sending_failed"], []⟩) ∧
    (∀ e, (send beforeSendAborted sendMail notificationId updateEmailedAt).result
        = .error e ↔ (beforeSendAborted = false ∧ sendMail = .error e)) ∧
    (∀ nid e, beforeSendAborted = false → sendMail = .ok () →
      notificationId = some nid → updateEmailedAt = .error e →
      send beforeSendAborted sendMail notificationId updateEmailedAt
        = ⟨.ok (), ["email.sent"], ["Failed to update notification: " ++ e]⟩) := by
  refine ⟨?_, ?_, ?_⟩
  · intro e hb hs
    simp [send, hb, hs]
  · intro e
    constructor
    · intro hr
      cases hb : beforeSendAborted with
      | true => rw [hb] at hr; simp [send] at hr
      | false =>
        rw [hb] at hr
        cases hs : sendMail with
        | error e2 =>
          rw [hs] at hr
          simp [send] at hr
          exact ⟨rfl, by rw [hr]⟩
        | ok u =>
          rw [hs] at hr
          exfalso
          cases u
          cases notificationId with
          | none => simp [send] at hr
          | some nid =>
            cases updateEmailedAt with
            | ok u2 => cases u2; simp [send] at hr
            | error e2 => simp [send] at hr
    · rintro ⟨hb, hs⟩
      simp [send, hb, hs]
  · intro nid e hb hs hn hu
    simp [send, hb, hs, hn, hu]

/-- C8: sticky unsubscription. For every user holding a soft-deleted
subscription for (document, event), the automatic collaborator-
subscription side effect of revision-created fanout never recreates a
subscription for that user (every row for them already predates the run)
and emits no `subscriptions.create` event for them; meanwhile every
collaborator holding no enabled or soft-deleted subscription gets an
enabled subscription and one event, and the emitted events follow
collaborator order. -/
theorem revisionFanout_sticky_unsubscribe (subs : List Subscription)
    (docId ev : String) (collaboratorIds : List String) (u : String)
    (hdel : ∃ s ∈ subs, s.userId = u ∧ s.documentId = docId ∧
      s.event = ev ∧ s.deleted = true) :
    (∀ e ∈ (createSubscriptions subs docId ev collaboratorIds).2, e.userId ≠ u) ∧
    (∀ s ∈ (createSubscriptions subs docId ev collaboratorIds).1,
      s.userId = u → s ∈ subs) ∧
    (∀ v ∈ collaboratorIds, hasSubscription subs v docId ev = false →
      Subscription.mk v docId ev true false
          ∈ (createSubscriptions subs docId ev collaboratorIds).1 ∧
        SubEvent.mk v docId ∈ (createSubscriptions subs docId ev collaboratorIds).2) ∧
    List.Sublist
      (((createSubscriptions subs docId ev collaboratorIds).2).map SubEvent.userId)
      collaboratorIds := by
  obtain ⟨s0, hmem, h1, h2, h3, _⟩ := hdel
  have hu : hasSubscription subs u docId ev = true := by
    simp only [hasSubscription, List.any_eq_true]
    exact ⟨s0, hmem, by simp [h1, h2, h3]⟩
  obtain ⟨_, hno1, hno2⟩ :=
    createSubsAux_no_new_for docId ev u collaboratorIds (subs, []) hu
  refine ⟨?_, ?_, ?_, ?_⟩
  · intro e he
    rcases hno2 e he with hin | hne
    · exact absurd hin (by simp)
    · exact hne
  · intro s hs hsu
    rcases hno1 s hs with hin | hne
    · exact hin
    · exact absurd hsu hne
  · intro v hv hfalse
    exact createSubsAux_creates subs docId ev collaboratorIds (subs, [])
      (fun w hw => Or.inl hw) v hv hfalse
  · obtain ⟨t, ht, hsub⟩ :=
      createSubsAux_events_sublist docId ev collaboratorIds (subs, [])
    have : (createSubscriptions subs docId ev collaboratorIds).2 = t := by
      simpa [createSubscriptions] using ht
    rw [this]
    exact hsub

/-- C8 witness: the repository test's scenario — collaborators c0, c1, c2
of one document, c2 having soft-deleted their subscription — run at
concrete inputs through the sticky-unsubscribe theorem: no event for c2,
and c0 still gets a subscription and an event. -/
theorem revisionFanout_sticky_unsubscribe_witness :
    SubEvent.mk "c2" "d"
        ∉ (createSubscriptions [⟨"c2", "d", "documents.update", true, true⟩]
            "d" "documents.update" ["c0", "c1", "c2"]).2 ∧
    SubEvent.mk "c0" "d"
        ∈ (createSubscriptions [⟨"c2", "d", "documents.update", true, true⟩]
            "d" "documents.update" ["c0", "c1", "c2"]).2 ∧
    Subscription.mk "c0" "d" "documents.update" true false
        ∈ (createSubscriptions [⟨"c2", "d", "documents.update", true, true⟩]
            "d" "documents.update" ["c0", "c1", "c2"]).1 := by
  have h := revisionFanout_sticky_unsubscribe
    [⟨"c2", "d", "documents.update", true, true⟩] "d" "documents.update"
    ["c0", "c1", "c2"] "c2"
    ⟨⟨"c2", "d", "documents.update", true, true⟩, by decide, rfl, rfl, rfl, rfl⟩
  have hc0 := h.2.2.1 "c0" (by decide) (by decide)
  exact ⟨fun hm => h.1 _ hm rfl, hc0.2, hc0.1⟩

/-- C9 witness: concrete evaluations discharging each hypothesis of the
`send` failure-policy theorem. -/
theorem send_failure_policy_witness :
    send false (.error "smtp refused") (some "n1") (.ok ())
      = ⟨.error "smtp refused", ["email.sending_failed"], []⟩ ∧
    send false (.ok ()) (some "n1") (.error "row gone")
      = ⟨.ok (), ["email.sent"], ["Failed to update notification: " ++ "row gone"]⟩ := by
  constructor
  · exact (send_failure_policy false (.error "smtp refused") (some "n1")
      (.ok ())).1 "smtp refused" rfl rfl
  · exact (send_failure_policy false (.ok ()) (some "n1")
      (.error "row gone")).2.2 "n1" "row gone" rfl rfl rfl rfl

end Spec2Proof
